import Mathlib

/-!
Verification development for the vcstool-repos-shortcut browser extension.

The definitions below are a shallow embedding of the content script
`src/main.js` (constants `REGEX`, object `Utils`, class `App`).  Rendered
text lines are modelled as pairs of an element id and an `innerText`
string; JavaScript strings are modelled as `String` (processed through
their `List Char` data), JavaScript `null` / missing fields as `Option`,
and the `repos` object as an association list keyed by repository name.
-/

set_option maxRecDepth 20000

namespace Vcs

/-! ### Character classes used by the regexes in `main.js`

`REGEX.SSH_URL  = /^git@([\w.-]+):([\w.-]+)\/([\w.-]+)\.git$/`
`REGEX.REPOS_KEY = /^[\w.\-\/_]+:\s*(#.*)?$/`
`REGEX.COMMIT_HASH = /^[0-9a-f]{40}$/`

`\w` is `[A-Za-z0-9_]`; `\s` is JavaScript whitespace (we cover the ASCII
white space characters plus NBSP and the BOM, the ones that can occur in
DOM `innerText`); `.` matches everything except line terminators. -/

/-- JavaScript whitespace, as used by `String.prototype.trim` and `\s`. -/
def isJsWs (c : Char) : Bool :=
  c = ' ' || c = '\t' || c = '\n' || c = '\r' || c = '\x0b' || c = '\x0c' ||
  c = '\u00A0' || c = '\uFEFF'

/-- A character of the class `[\w.-]` (SSH-URL regex groups). -/
def sshChar (c : Char) : Bool :=
  c.isAlphanum || c = '_' || c = '.' || c = '-'

/-- A character of the class `[\w.\-\/_]` (block-start key pattern). -/
def keyChar (c : Char) : Bool :=
  c.isAlphanum || c = '_' || c = '.' || c = '-' || c = '/'

/-- A character of the class `[0-9a-f]` (commit-hash pattern). -/
def hexLowerChar (c : Char) : Bool :=
  (decide ('0' ≤ c) && decide (c ≤ '9')) || (decide ('a' ≤ c) && decide (c ≤ 'f'))

/-- A JavaScript line terminator (which `.` in a regex does not match). -/
def isLineTerm (c : Char) : Bool :=
  c = '\n' || c = '\r' || c = '\u2028' || c = '\u2029'

/-! ### List-of-characters utilities mirroring the JS string operations -/

/-- `String.prototype.trim`, on character lists. -/
def trimChars (l : List Char) : List Char :=
  ((l.dropWhile isJsWs).reverse.dropWhile isJsWs).reverse

/-- `s.split(sep)` for a single-character separator, JS semantics
(`"a:b".split(":") = ["a","b"]`, `":".split(":") = ["",""]`). -/
def splitCh (sep : Char) : List Char → List (List Char)
  | [] => [[]]
  | c :: cs =>
    match splitCh sep cs with
    | [] => [[c]]
    | h :: t => if c = sep then [] :: h :: t else (c :: h) :: t

/-- `parts.join(sep)` for a single-character separator. -/
def joinCh (sep : Char) : List (List Char) → List Char
  | [] => []
  | [x] => x
  | x :: xs => x ++ sep :: joinCh sep xs

/-- `s.split("#")[0]`: everything before the first `#`. -/
def beforeHash (l : List Char) : List Char :=
  l.takeWhile (fun c => c ≠ '#')

/-- `s.startsWith(pre)`, on character lists (`startsWithL pre s`). -/
def startsWithL : List Char → List Char → Bool
  | [], _ => true
  | _ :: _, [] => false
  | p :: ps, c :: cs => p = c && startsWithL ps cs

/-- Does the list end with `.git`?  (`/\.git$/` respectively
`endsWith(".git")`): the reversed list starts with the reversed suffix. -/
def endsWithGit (l : List Char) : Bool :=
  startsWithL ['t', 'i', 'g', '.'] l.reverse

/-- Split at the first occurrence of `sep`, if any. -/
def splitFirst (sep : Char) : List Char → Option (List Char × List Char)
  | [] => none
  | c :: cs =>
    if c = sep then some ([], cs)
    else (splitFirst sep cs).map (fun p => (c :: p.1, p.2))

/-- `hay.includes(needle)`: substring test. -/
def containsSub : List Char → List Char → Bool
  | [], needle => needle.isEmpty
  | c :: t, needle => startsWithL needle (c :: t) || containsSub t needle

/-- Does the first (`#`-unaware) character make the line a comment?
(`text.startsWith("#")`). -/
def headIsHash : List Char → Bool
  | [] => false
  | c :: _ => c = '#'

/-- `REGEX.COMMIT_HASH.test` : `/^[0-9a-f]{40}$/`. -/
def commitHash (l : List Char) : Bool :=
  (l.length == 40) && l.all hexLowerChar

/-- The optional `(#.*)?$` part after `\s*`: either nothing remains, or a
`#` followed only by non-line-terminators up to the end. -/
def commentTailOk : List Char → Bool
  | [] => true
  | c :: tail => (c = '#') && tail.all (fun x => !isLineTerm x)

/-- `REGEX.REPOS_KEY.test` : `/^[\w.\-\/_]+:\s*(#.*)?$/`.  The key class
excludes `:`, so the greedy `+` consumes exactly the characters before the
first colon; after `\s*` the optional comment must run to the end of the
string (`.` skips no line terminator, `$` anchors the end). -/
def keyPat (l : List Char) : Bool :=
  (!(l.takeWhile keyChar).isEmpty) &&
  ((l.dropWhile keyChar).head? == some ':') &&
  commentTailOk ((l.dropWhile keyChar).tail.dropWhile isJsWs)

/-! ### `Utils.convertSshToHttp` (src/main.js lines 25-29)

The regex `/^git@([\w.-]+):([\w.-]+)\/([\w.-]+)\.git$/` can only match by
cutting the input at the first `:` after `git@` and the first `/` after
that colon (the group classes contain neither separator); the third group
is whatever precedes the final `.git`.  The function returns the rebuilt
HTTPS URL on a match and `null` (here `none`) otherwise. -/

def convertSshToHttp (url : String) : Option String :=
  if startsWithL "git@".data url.data then
    match splitFirst ':' (url.data.drop 4) with
    | none => none
    | some (dom, rest1) =>
      if dom.isEmpty || !dom.all sshChar then none
      else
        match splitFirst '/' rest1 with
        | none => none
        | some (owner, rest2) =>
          if owner.isEmpty || !owner.all sshChar then none
          else if endsWithGit rest2 then
            if (rest2.take (rest2.length - 4)).isEmpty
                || !(rest2.take (rest2.length - 4)).all sshChar then none
            else some (String.mk ("https://".data ++ dom ++ '/' :: owner ++ '/' ::
                        rest2.take (rest2.length - 4) ++ ".git".data))
          else none
  else none

/-- Modelled from the spec: the shape `git@<domain>:<owner>/<repo>.git`
with the three groups non-empty words over `[\w.-]`, stated independently
of `convertSshToHttp` as an explicit decomposition of the input. -/
def SshShape (s : String) : Prop :=
  ∃ d o r : List Char,
    d ≠ [] ∧ o ≠ [] ∧ r ≠ [] ∧
    d.all sshChar = true ∧ o.all sshChar = true ∧ r.all sshChar = true ∧
    s.data = "git@".data ++ d ++ ':' :: o ++ '/' :: r ++ ".git".data

/-! ### `Utils.isReposFile` (src/main.js lines 31-36) -/

/-- `url.split(/[?#]/)[0].split("/")`: the segments of the URL with query
string and fragment stripped. -/
def urlSegments (url : String) : List (List Char) :=
  splitCh '/' (url.data.takeWhile (fun c => c ≠ '?' && c ≠ '#'))

/-- `Utils.isReposFile`: some `/`-segment of the stripped URL contains
`".repos"`. -/
def isReposFile (url : String) : Bool :=
  (urlSegments url).any (fun seg => containsSub seg ".repos".data)

/-! ### `Utils.parseRepositories` (src/main.js lines 38-90) -/

/-- One rendered code line: its DOM `id` and its `innerText`. -/
structure Line where
  id : String
  text : String
  deriving DecidableEq, Repr

/-- A repository record under construction (`repo` in `processBlock`).
JavaScript `null`/missing fields are `none`; note that `url` is `none`
both when never assigned and when assigned the `null` result of a failed
SSH conversion, which agrees with every use the code makes of it. -/
structure Repo where
  name : String
  key : String
  type : Option String
  url : Option String
  version : Option String
  deriving DecidableEq, Repr

/-- The `repos` object: an association list keyed by repository name. -/
abbrev RepoMap := List (String × Repo)

/-- `repos[name]` lookup. -/
def findRepo : RepoMap → String → Option Repo
  | [], _ => none
  | (n, r) :: t, k => if k = n then some r else findRepo t k

/-- `lines[0].innerText.split(":")[0].trim()`: the record name derived
from a block's first line. -/
def lineName (l : Line) : String :=
  String.mk (trimChars (l.text.data.takeWhile (fun c => c ≠ ':')))

/-- `{ name, key: lines[0].id }`: the record before field extraction. -/
def initRepo (l : Line) : Repo :=
  { name := lineName l, key := l.id, type := none, url := none, version := none }

/-- `valParts.join(":").split("#")[0].trim()`. -/
def fieldVal (vp : List (List Char)) : String :=
  String.mk (trimChars (beforeHash (joinCh ':' vp)))

/-- The three field assignments of `processBlock` (src/main.js lines
56-61).  The source tests `key.trim()` against `"type"`, `"url"` and
`"version"` with three independent `if`s; since the three literals are
distinct the chain below is the same function.  A `url:` value starting
with `git@` is passed through `convertSshToHttp` and the (possibly
`null`) result is assigned unconditionally. -/
def applyField (r : Repo) (k : List Char) (val : String) : Repo :=
  if k = "type".data then { r with type := some val }
  else if k = "url".data then
    { r with url := if startsWithL "git@".data val.data then convertSshToHttp val
                    else some val }
  else if k = "version".data then { r with version := some val }
  else r

/-- Processing of one body line of a block (the `forEach` callback,
src/main.js lines 48-62), as a function of the trimmed line text. -/
def fieldStepText (r : Repo) (t : List Char) : Repo :=
  if t.isEmpty then r
  else if headIsHash t then r
  else
    match splitCh ':' t with
    | [] => r
    | [_] => r
    | k :: v :: vps => applyField r (trimChars k) (fieldVal (v :: vps))

/-- Processing of one body line of a block. -/
def fieldStep (r : Repo) (l : Line) : Repo :=
  fieldStepText r (trimChars l.text.data)

/-- `repo.url.replace(/\.git$/, "")`: remove one trailing `.git`. -/
def stripDotGit (u : String) : String :=
  if endsWithGit u.data then String.mk (u.data.take (u.data.length - 4)) else u

/-- The final link URL (src/main.js lines 65-72): strip `.git`, then
append `/blob/<v>` for a 40-lowercase-hex version, `/tree/<v>` for any
other truthy version, nothing when the version is absent or empty. -/
def linkUrl (u : String) (v : Option String) : String :=
  match v with
  | some vv =>
    if vv = "" then stripDotGit u
    else if commitHash vv.data then stripDotGit u ++ "/blob/" ++ vv
    else stripDotGit u ++ "/tree/" ++ vv
  | none => stripDotGit u

/-- Acceptance and URL rewriting (src/main.js lines 64-74):
`if (repo.url && repo.type?.includes("git"))` — the record is kept only
if its `url` is truthy and its `type` is present and contains `"git"`. -/
def finishRepo (r : Repo) : Option Repo :=
  match r.url, r.type with
  | some u, some ty =>
    if u ≠ "" ∧ containsSub ty.data "git".data = true then
      some { r with url := some (linkUrl u r.version) }
    else none
  | _, _ => none

/-- `processBlock` (src/main.js lines 42-75): skip empty blocks, skip
blocks whose name already has an accepted record, otherwise extract the
fields from the body lines and accept the record if displayable. -/
def processBlock (repos : RepoMap) (lines : List Line) : RepoMap :=
  match lines with
  | [] => repos
  | l0 :: body =>
    if (findRepo repos (lineName l0)).isSome then repos
    else
      match finishRepo (body.foldl fieldStep (initRepo l0)) with
      | some r => repos ++ [(lineName l0, r)]
      | none => repos

/-- `if (currentBlock.length) currentBlock.push(line)`: a line joins the
current block only if one is open. -/
def pushIfOpen (cur : List Line) (l : Line) : List Line :=
  match cur with
  | [] => []
  | _ => cur ++ [l]

/-- One iteration of the segmentation loop (src/main.js lines 77-87).
A line matching the key pattern opens a new block — closing the current
one — unless it is the exempt outer header (`id === "LC1"` and text
exactly `repositories:`), which falls through to the push. -/
def parseStep (s : RepoMap × List Line) (l : Line) : RepoMap × List Line :=
  if keyPat (trimChars l.text.data) then
    if l.id = "LC1" ∧ trimChars l.text.data = "repositories:".data then
      (s.1, pushIfOpen s.2 l)
    else
      (processBlock s.1 s.2, [l])
  else
    (s.1, pushIfOpen s.2 l)

/-- `Utils.parseRepositories` (src/main.js lines 38-90). -/
def parseRepositories (ls : List Line) : RepoMap :=
  processBlock (ls.foldl parseStep (∅, [])).1 (ls.foldl parseStep (∅, [])).2

/-- Parsing resumed from an intermediate scan state (the tail of the scan
loop followed by the final `processBlock`). -/
def parseFrom (s : RepoMap × List Line) (ls : List Line) : RepoMap :=
  processBlock (ls.foldl parseStep s).1 (ls.foldl parseStep s).2

/-- The name a block would get (derived from its first line). -/
def blockName : List Line → String
  | [] => ""
  | l :: _ => lineName l

/-! ### The `App` lifecycle (src/main.js lines 167-353)

The content script is single-threaded and event-driven; we model the
slice of it that claims about URL-processing cycles speak about: the
fields `lastUrl` and `timer` of `App`, the queue of pending `setTimeout`
callbacks, and the overlay buttons currently in the document.  A pending
callback is either a retry step of `tryLoad` (src/main.js lines 318-334)
or a debounced `update` (lines 182-189).  Each task carries, as ghost
data, the index of the URL-processing cycle during which it was
scheduled, and each button the cycle of the callback that created it;
`staleLog` records every button creation performed by a callback that was
scheduled in an earlier, abandoned cycle.  Whether the container element
is present in the DOM at a given moment is an input of each event. -/

/-- `CONFIG.RETRY.MAX`. -/
def retryMax : Nat := 10

/-- A pending `setTimeout` callback, with its ghost scheduling cycle:
a `tryLoad` retry (carrying the number of failed attempts so far) or a
debounced `update`. -/
inductive TimerTask where
  | retry (cycle : Nat) (attempts : Nat)
  | debounce (cycle : Nat)
  deriving DecidableEq, Repr

/-- Is the task a debounced `update` (scheduled through `this.timer`)? -/
def TimerTask.isDebounce : TimerTask → Bool
  | .debounce _ => true
  | _ => false

/-- Is the task a `tryLoad` retry? -/
def TimerTask.isRetry : TimerTask → Bool
  | .retry _ _ => true
  | _ => false

/-- The modelled state of the `App` object plus event loop. -/
structure AppState where
  lastUrl : String
  /-- `this.timer`: the id last stored by a debounce `setTimeout`. -/
  timer : Option Nat
  /-- pending `setTimeout` callbacks, as (timer id, task). -/
  pending : List (Nat × TimerTask)
  nextId : Nat
  /-- `this.listenersRegistered`. -/
  listeners : Bool
  /-- ghost: scheduling cycles of the buttons currently in the page. -/
  buttons : List Nat
  /-- ghost: index of the current URL-processing cycle. -/
  cycle : Nat
  /-- ghost: (creator cycle, active cycle) of each button creation made by
  a callback from an abandoned cycle. -/
  staleLog : List (Nat × Nat)
  deriving DecidableEq, Repr

/-- The initial state (fresh `App`). -/
def initialApp : AppState :=
  { lastUrl := "", timer := none, pending := [], nextId := 0,
    listeners := false, buttons := [], cycle := 0, staleLog := [] }

/-- `clearTimeout(this.timer)`: deletes the pending callback with the
stored id (if still pending); the stored handle itself is not nulled. -/
def clearStoredTimer (s : AppState) : AppState :=
  match s.timer with
  | none => s
  | some id => { s with pending := s.pending.filter (fun p => p.1 ≠ id) }

/-- `UI.renderButtons` after a successful `update` (lines 233-244):
replaces all buttons; `creator` is the ghost cycle of the code that runs
it.  A creation by a callback of an abandoned cycle is logged. -/
def renderButtons (s : AppState) (creator : Nat) : AppState :=
  { s with buttons := [creator],
           staleLog := if creator ≠ s.cycle then s.staleLog ++ [(creator, s.cycle)]
                       else s.staleLog }

/-- `this.update()` (lines 219-245): renders only when the container (and
lines container) is present, otherwise returns early. -/
def appUpdate (s : AppState) (creator : Nat) (containerNow : Bool) : AppState :=
  if containerNow then renderButtons s creator else s

/-- The body of `tryLoad` (lines 318-333) for a given number of failed
attempts so far: render and register listeners if the container is there,
otherwise schedule another retry while attempts remain.  The scheduled
`setTimeout(tryLoad, ...)` handle is discarded by the source — it is not
stored in `this.timer`. -/
def tryLoadStep (s : AppState) (creator attempts : Nat) (containerNow : Bool) :
    AppState :=
  if containerNow then
    { appUpdate s creator containerNow with listeners := true }
  else if attempts < retryMax then
    { s with pending := s.pending ++ [(s.nextId, .retry creator (attempts + 1))],
             nextId := s.nextId + 1 }
  else s

/-- `App.init` (lines 314-335): nothing unless the URL names a repos
file; otherwise the first, synchronous `tryLoad` call with zero failed
attempts. -/
def appInit (s : AppState) (containerNow : Bool) : AppState :=
  if isReposFile s.lastUrl then tryLoadStep s s.cycle 0 containerNow else s

/-- `App.processUrl` (lines 337-353): ignore the URL if unchanged;
otherwise remove the buttons, drop the parsed records, unregister the
listeners, `clearTimeout(this.timer)`, and run `init` — which begins the
new cycle (ghost counter incremented). -/
def processUrl (s : AppState) (url : String) (containerNow : Bool) : AppState :=
  if url = s.lastUrl then s
  else
    appInit
      (clearStoredTimer
        { s with lastUrl := url, buttons := [], listeners := false,
                 cycle := s.cycle + 1 })
      containerNow

/-- Delivery of a pending `tryLoad` retry timeout. -/
def fireRetry (s : AppState) (id : Nat) (containerNow : Bool) : AppState :=
  match s.pending.find? (fun p => p.1 = id) with
  | some (_, .retry c n) =>
    tryLoadStep { s with pending := s.pending.filter (fun p => p.1 ≠ id) }
      c n containerNow
  | _ => s

/-- `handleScroll`/`handleContentChange` (lines 182-189): when listeners
are registered, `clearTimeout(this.timer)` then store a fresh debounce
timeout in `this.timer`. -/
def scrollEvent (s : AppState) : AppState :=
  if s.listeners then
    { clearStoredTimer s with
        pending := (clearStoredTimer s).pending ++ [((clearStoredTimer s).nextId,
                     .debounce (clearStoredTimer s).cycle)],
        timer := some (clearStoredTimer s).nextId,
        nextId := (clearStoredTimer s).nextId + 1 }
  else s

/-- Delivery of a pending debounced `update` timeout. -/
def fireDebounce (s : AppState) (id : Nat) (containerNow : Bool) : AppState :=
  match s.pending.find? (fun p => p.1 = id) with
  | some (_, .debounce c) =>
    appUpdate { s with pending := s.pending.filter (fun p => p.1 ≠ id) }
      c containerNow
  | _ => s

/-! ### Spec-side predicates and proof infrastructure -/

/-- Modelled from the spec: "a 40-character lowercase-hex commit hash",
stated as a property of the characters rather than through the code's
regex test. -/
def SpecCommitHash (v : String) : Prop :=
  v.data.length = 40 ∧ ∀ c ∈ v.data, ('0' ≤ c ∧ c ≤ '9') ∨ ('a' ≤ c ∧ c ≤ 'f')

instance (v : String) : Decidable (SpecCommitHash v) := by
  unfold SpecCommitHash; infer_instance

/-- A line whose trimmed text is empty or starts with `#` (a blank or
comment line in the sense of the spec). -/
def NoiseLine (l : Line) : Prop :=
  trimChars l.text.data = [] ∨ headIsHash (trimChars l.text.data) = true

instance (l : Line) : Decidable (NoiseLine l) := by
  unfold NoiseLine; infer_instance

/-- The scan step neither opens nor closes a block on `l`: it just pushes
`l` onto an open block (or drops it). -/
def StepKeeps (l : Line) : Prop :=
  ∀ s : RepoMap × List Line, parseStep s l = (s.1, pushIfOpen s.2 l)

/-- Field extraction ignores `l`. -/
def FieldInert (l : Line) : Prop :=
  ∀ r : Repo, fieldStep r l = r

/-- A line that is invisible to the parser: it never opens a block and
never contributes a field. -/
def InertLine (l : Line) : Prop :=
  StepKeeps l ∧ FieldInert l

/-- `InertExt t t'` : `t'` is `t` with inert lines inserted at arbitrary
positions. -/
inductive InertExt : List Line → List Line → Prop where
  | nil : InertExt [] []
  | cons (l : Line) {t t' : List Line} : InertExt t t' → InertExt (l :: t) (l :: t')
  | ins (n : Line) {t t' : List Line} : InertLine n → InertExt t t' →
      InertExt t (n :: t')

/-- Two current-block states that differ only by inert lines after the
(shared) block-start line. -/
def BlockRel (c c' : List Line) : Prop :=
  (c = [] ∧ c' = []) ∨
  ∃ h t t', c = h :: t ∧ c' = h :: t' ∧ InertExt t t'

/-- The invariant of C10: every accepted record is keyed by its own name,
has a git-like type and a present url, and its `key` is the id of an
input line whose key text is that name (the first line of its block). -/
def GoodRec (ls : List Line) (k : String) (r : Repo) : Prop :=
  r.name = k ∧
  (∃ t, r.type = some t ∧ containsSub t.data "git".data = true) ∧
  (∃ u, r.url = some u) ∧
  (∃ l, l ∈ ls ∧ r.key = l.id ∧ lineName l = k)

/-! ## Helper lemmas -/

theorem startsWithL_self_append (p t : List Char) : startsWithL p (p ++ t) = true := by
  induction p with
  | nil => rfl
  | cons c cs ih => simp [startsWithL, ih]

theorem startsWithL_iff (p : List Char) :
    ∀ l : List Char, startsWithL p l = true ↔ ∃ t, l = p ++ t := by
  induction p with
  | nil => intro l; simp [startsWithL]
  | cons c cs ih =>
    intro l
    cases l with
    | nil => simp [startsWithL]
    | cons x xs =>
      simp only [startsWithL, Bool.and_eq_true, decide_eq_true_eq, ih xs,
        List.cons_append, List.cons.injEq]
      constructor
      · rintro ⟨hc, t, ht⟩; exact ⟨t, hc.symm, ht⟩
      · rintro ⟨t, hc, ht⟩; exact ⟨hc.symm, t, ht⟩

theorem splitFirst_eq (c : Char) :
    ∀ l a b, splitFirst c l = some (a, b) → l = a ++ c :: b ∧ c ∉ a := by
  intro l
  induction l with
  | nil => intro a b h; simp [splitFirst] at h
  | cons x xs ih =>
    intro a b h
    by_cases hx : x = c
    · subst hx
      simp only [splitFirst, if_pos] at h
      have ha : ([] : List Char) = a := congrArg Prod.fst (Option.some.inj h)
      have hb : xs = b := congrArg Prod.snd (Option.some.inj h)
      subst ha; subst hb; simp
    · simp only [splitFirst, if_neg hx] at h
      cases hsp : splitFirst c xs with
      | none => rw [hsp] at h; simp at h
      | some p =>
        rw [hsp] at h
        simp only [Option.map_some'] at h
        have ha : x :: p.1 = a := congrArg Prod.fst (Option.some.inj h)
        have hb : p.2 = b := congrArg Prod.snd (Option.some.inj h)
        obtain ⟨hl, hmem⟩ := ih p.1 p.2 (by rw [hsp])
        subst ha; subst hb
        refine ⟨by rw [hl]; simp, ?_⟩
        simp only [List.mem_cons, not_or]
        exact ⟨fun hc => hx hc.symm, hmem⟩

theorem splitFirst_app (c : Char) (a b : List Char) (h : ∀ x ∈ a, x ≠ c) :
    splitFirst c (a ++ c :: b) = some (a, b) := by
  induction a with
  | nil => simp [splitFirst]
  | cons x a' ih =>
    have hx : x ≠ c := h x (by simp)
    have ih' := ih (fun y hy => h y (by simp [hy]))
    simp [splitFirst, hx, ih']

theorem endsWithGit_iff (l : List Char) :
    endsWithGit l = true ↔ ∃ r, l = r ++ ['.', 'g', 'i', 't'] := by
  unfold endsWithGit
  rw [startsWithL_iff]
  constructor
  · rintro ⟨t, ht⟩
    refine ⟨t.reverse, ?_⟩
    have := congrArg List.reverse ht
    simpa using this
  · rintro ⟨r, hr⟩
    exact ⟨r.reverse, by simp [hr]⟩

theorem take_len_append (a b : List Char) : (a ++ b).take a.length = a := by
  induction a with
  | nil => simp
  | cons x xs ih => simp [ih]

theorem commitHash_iff (v : String) : commitHash v.data = true ↔ SpecCommitHash v := by
  unfold commitHash SpecCommitHash hexLowerChar
  simp [List.all_eq_true, Bool.or_eq_true, Bool.and_eq_true, decide_eq_true_eq]

theorem findRepo_append_some {m : RepoMap} {k : String} {r : Repo}
    (h : findRepo m k = some r) (zs : RepoMap) : findRepo (m ++ zs) k = some r := by
  induction m with
  | nil => simp [findRepo] at h
  | cons p t ih =>
    obtain ⟨n, x⟩ := p
    by_cases hk : k = n
    · simp [findRepo, hk] at h ⊢; exact h
    · simp [findRepo, hk] at h ⊢; exact ih h

theorem findRepo_append_none {m : RepoMap} {k : String}
    (h : findRepo m k = none) (zs : RepoMap) : findRepo (m ++ zs) k = findRepo zs k := by
  induction m with
  | nil => simp
  | cons p t ih =>
    obtain ⟨n, x⟩ := p
    by_cases hk : k = n
    · simp [findRepo, hk] at h
    · simp [findRepo, hk] at h ⊢; exact ih h

theorem findRepo_append_cases {m zs : RepoMap} {k : String} {r : Repo}
    (h : findRepo (m ++ zs) k = some r) :
    findRepo m k = some r ∨ (findRepo m k = none ∧ findRepo zs k = some r) := by
  induction m with
  | nil => right; exact ⟨rfl, by simpa using h⟩
  | cons p t ih =>
    obtain ⟨n, x⟩ := p
    by_cases hk : k = n
    · simp [findRepo, hk] at h ⊢; exact h
    · simp [findRepo, hk] at h ⊢; exact ih h

theorem applyField_name_key (r : Repo) (k : List Char) (val : String) :
    (applyField r k val).name = r.name ∧ (applyField r k val).key = r.key := by
  unfold applyField
  split_ifs <;> exact ⟨rfl, rfl⟩

theorem fieldStepText_name_key (r : Repo) (t : List Char) :
    (fieldStepText r t).name = r.name ∧ (fieldStepText r t).key = r.key := by
  unfold fieldStepText
  split_ifs
  · exact ⟨rfl, rfl⟩
  · exact ⟨rfl, rfl⟩
  · match splitCh ':' t with
    | [] => exact ⟨rfl, rfl⟩
    | [_] => exact ⟨rfl, rfl⟩
    | k :: v :: vps => exact applyField_name_key r (trimChars k) (fieldVal (v :: vps))

theorem foldl_fieldStep_name_key (body : List Line) :
    ∀ r0 : Repo, ((body.foldl fieldStep r0).name = r0.name ∧
      (body.foldl fieldStep r0).key = r0.key) := by
  induction body with
  | nil => intro r0; exact ⟨rfl, rfl⟩
  | cons l t ih =>
    intro r0
    have h1 := fieldStepText_name_key r0 (trimChars l.text.data)
    have h2 := ih (fieldStep r0 l)
    simp only [List.foldl_cons]
    exact ⟨h2.1.trans h1.1, h2.2.trans h1.2⟩

theorem processBlock_cons (m : RepoMap) (l0 : Line) (body : List Line) :
    processBlock m (l0 :: body) =
      if (findRepo m (lineName l0)).isSome = true then m
      else
        match finishRepo (body.foldl fieldStep (initRepo l0)) with
        | some r => m ++ [(lineName l0, r)]
        | none => m := rfl

theorem processBlock_cons_none {m : RepoMap} {l0 : Line} {body : List Line}
    (h : findRepo m (lineName l0) = none) :
    processBlock m (l0 :: body) =
      match finishRepo (body.foldl fieldStep (initRepo l0)) with
      | some r => m ++ [(lineName l0, r)]
      | none => m := by
  simp [processBlock, h]

theorem drop_len_append (a b : List Char) : (a ++ b).drop a.length = b := by
  induction a with
  | nil => simp
  | cons x xs ih => simp [ih]

theorem containsSub_iff (hay needle : List Char) :
    containsSub hay needle = true ↔ ∃ pre suf, hay = pre ++ needle ++ suf := by
  induction hay with
  | nil =>
    simp only [containsSub, List.isEmpty_iff]
    constructor
    · intro h; exact ⟨[], [], by simp [h]⟩
    · rintro ⟨pre, suf, hs⟩
      rcases List.append_eq_nil.mp (List.append_eq_nil.mp hs.symm).1 with ⟨-, h2⟩
      exact h2
  | cons c t ih =>
    simp only [containsSub, Bool.or_eq_true, startsWithL_iff, ih]
    constructor
    · rintro (⟨suf, hs⟩ | ⟨pre, suf, hs⟩)
      · exact ⟨[], suf, by simp [hs]⟩
      · exact ⟨c :: pre, suf, by simp [hs]⟩
    · rintro ⟨pre, suf, hs⟩
      cases pre with
      | nil => left; exact ⟨suf, by simpa using hs⟩
      | cons p ps =>
        right
        simp only [List.cons_append, List.cons.injEq] at hs
        exact ⟨ps, suf, hs.2⟩

theorem all_ne_of_all_sshChar {d : List Char} (had : d.all sshChar = true)
    (c : Char) (hc : sshChar c = false) : ∀ x ∈ d, x ≠ c := by
  intro x hx hxc
  subst hxc
  rw [List.all_eq_true.mp had x hx] at hc
  cases hc

/-- Soundness of the embedded SSH matcher: a successful conversion means
the input had the `git@<domain>:<owner>/<repo>.git` shape. -/
theorem convert_some_shape (s u : String) (h : convertSshToHttp s = some u) :
    SshShape s := by
  unfold convertSshToHttp at h
  by_cases hpre : startsWithL "git@".data s.data = true
  case neg => rw [if_neg hpre] at h; cases h
  rw [if_pos hpre] at h
  obtain ⟨t0, ht0⟩ := (startsWithL_iff _ _).mp hpre
  cases hsp : splitFirst ':' (s.data.drop 4) with
  | none => rw [hsp] at h; cases h
  | some p =>
    obtain ⟨dom, rest1⟩ := p
    rw [hsp] at h
    simp only at h
    by_cases hd : (dom.isEmpty || !dom.all sshChar) = true
    case pos => rw [if_pos hd] at h; cases h
    rw [if_neg hd] at h
    cases hsp2 : splitFirst '/' rest1 with
    | none => rw [hsp2] at h; cases h
    | some q =>
      obtain ⟨owner, rest2⟩ := q
      rw [hsp2] at h
      simp only at h
      by_cases ho : (owner.isEmpty || !owner.all sshChar) = true
      case pos => rw [if_pos ho] at h; cases h
      rw [if_neg ho] at h
      by_cases hg : endsWithGit rest2 = true
      case neg => rw [if_neg hg] at h; cases h
      rw [if_pos hg] at h
      by_cases hrn : ((rest2.take (rest2.length - 4)).isEmpty
          || !(rest2.take (rest2.length - 4)).all sshChar) = true
      case pos => rw [if_pos hrn] at h; cases h
      rw [if_neg hrn] at h
      simp only [Bool.or_eq_true, Bool.not_eq_true', not_or, Bool.not_eq_false,
        List.isEmpty_iff] at hd ho hrn
      obtain ⟨rg, hrg⟩ := (endsWithGit_iff rest2).mp hg
      have hlen : rest2.length - 4 = rg.length := by
        rw [hrg]; simp
      have htake : rest2.take (rest2.length - 4) = rg := by
        rw [hlen, hrg, take_len_append]
      obtain ⟨h1, h2⟩ := splitFirst_eq ':' _ _ _ hsp
      obtain ⟨h3, h4⟩ := splitFirst_eq '/' _ _ _ hsp2
      refine ⟨dom, owner, rg, hd.1, ho.1, ?_, hd.2, ho.2, ?_, ?_⟩
      · intro hrg0
        rw [htake] at hrn
        exact hrn.1 hrg0
      · rw [← htake]; exact hrn.2
      · have hdrop : s.data.drop 4 = t0 := by
          rw [ht0]
          have h40 : ("git@".data).length = 4 := rfl
          rw [← h40, drop_len_append]
        rw [ht0, ← hdrop, h1, h3, hrg]
        simp

/-- Completeness of the embedded SSH matcher: an input of the matching
shape converts successfully. -/
theorem shape_convert_ne_none {s : String} (hs : SshShape s) :
    convertSshToHttp s ≠ none := by
  obtain ⟨d, o, r, hd, ho, hr, had, hao, har, heq⟩ := hs
  unfold convertSshToHttp
  rw [heq]
  simp only [List.append_assoc, List.cons_append, List.nil_append]
  rw [if_pos (by simp [startsWithL])]
  rw [show List.drop 4
        ('g' :: 'i' :: 't' :: '@' :: (d ++ ':' :: (o ++ '/' :: (r ++ ['.', 'g', 'i', 't']))))
        = d ++ ':' :: (o ++ '/' :: (r ++ ['.', 'g', 'i', 't'])) from rfl]
  rw [splitFirst_app ':' d _ (all_ne_of_all_sshChar had ':' (by decide))]
  simp only
  rw [if_neg (by simp [List.isEmpty_iff, hd, had])]
  rw [splitFirst_app '/' o _ (all_ne_of_all_sshChar hao '/' (by decide))]
  simp only
  rw [if_neg (by simp [List.isEmpty_iff, ho, hao])]
  rw [if_pos ((endsWithGit_iff _).mpr ⟨r, rfl⟩)]
  have htake : (r ++ ['.', 'g', 'i', 't']).take ((r ++ ['.', 'g', 'i', 't']).length - 4) = r := by
    rw [show (r ++ ['.', 'g', 'i', 't']).length - 4 = r.length by simp]
    exact take_len_append r _
  rw [htake]
  rw [if_neg (by simp [List.isEmpty_iff, hr, har])]
  simp

theorem finishRepo_eq {r : Repo} {u ty : String} (hu : r.url = some u)
    (hty : r.type = some ty) (hu' : u ≠ "")
    (hgit : containsSub ty.data "git".data = true) :
    finishRepo r = some { r with url := some (linkUrl u r.version) } := by
  simp [finishRepo, hu, hty, hu', hgit]

theorem finishRepo_some_iff (r : Repo) :
    (∃ x, finishRepo r = some x) ↔
      ((∃ u, r.url = some u ∧ u ≠ "") ∧
       (∃ ty, r.type = some ty ∧ containsSub ty.data "git".data = true)) := by
  rcases hu : r.url with _ | u
  · simp [finishRepo, hu]
  · rcases ht : r.type with _ | ty
    · simp [finishRepo, hu, ht]
    · by_cases h : (u ≠ "" ∧ containsSub ty.data "git".data = true)
      · simp [finishRepo, hu, ht, h, h.1, h.2]
      · have hnone : finishRepo r = none := by
          unfold finishRepo
          rw [hu, ht]
          simp only [if_neg h]
        rw [not_and_or] at h
        rcases h with h | h
        · simp only [ne_eq, not_not] at h
          simp [hnone, hu, h]
        · simp [hnone, ht, h]

theorem findRepo_processBlock_mono {m : RepoMap} {b : List Line} {k : String}
    {r : Repo} (h : findRepo m k = some r) :
    findRepo (processBlock m b) k = some r := by
  cases b with
  | nil => exact h
  | cons l0 body =>
    rw [processBlock_cons]
    by_cases hg : (findRepo m (lineName l0)).isSome = true
    · rw [if_pos hg]; exact h
    · rw [if_neg hg]
      cases hfin : finishRepo (body.foldl fieldStep (initRepo l0)) with
      | some x =>
        show findRepo (m ++ [(lineName l0, x)]) k = some r
        exact findRepo_append_some h _
      | none => exact h

theorem findRepo_parseStep_mono {s : RepoMap × List Line} {l : Line} {k : String}
    {r : Repo} (h : findRepo s.1 k = some r) :
    findRepo (parseStep s l).1 k = some r := by
  unfold parseStep
  split
  · split
    · exact h
    · exact findRepo_processBlock_mono h
  · exact h

theorem findRepo_foldl_mono (ls : List Line) :
    ∀ (s : RepoMap × List Line) (k : String) (r : Repo),
      findRepo s.1 k = some r → findRepo (ls.foldl parseStep s).1 k = some r := by
  induction ls with
  | nil => intro s k r h; exact h
  | cons l t ih =>
    intro s k r h
    exact ih (parseStep s l) k r (findRepo_parseStep_mono h)

/-! ## Claim theorems -/

/-- C6: `convertSshToHttp` maps `git@example.com:owner/repo.git` to
exactly `https://example.com/owner/repo.git`; every input that does not
match the `git@<domain>:<owner>/<repo>.git` pattern (e.g.
`not-an-ssh-url`) yields `none`, a result distinct from every successful
string result. -/
theorem c6_convertSshToHttp_round_trip :
    convertSshToHttp "git@example.com:owner/repo.git"
        = some "https://example.com/owner/repo.git"
    ∧ convertSshToHttp "not-an-ssh-url" = none
    ∧ ∀ s : String, convertSshToHttp s = none ↔ ¬ SshShape s := by
  refine ⟨by decide, by decide, ?_⟩
  intro s
  constructor
  · intro hnone hshape
    exact shape_convert_ne_none hshape hnone
  · intro hns
    cases hc : convertSshToHttp s with
    | none => rfl
    | some u => exact absurd (convert_some_shape s u hc) hns

/-- C8 counterexample: the URL `https://github.com/x.repos/readme.md` is
treated as a repos file by `Utils.isReposFile` although the final segment
of its path (`readme.md`) does not contain `.repos` — only a non-final
segment does. -/
theorem c8_counterexample :
    isReposFile "https://github.com/x.repos/readme.md" = true ∧
    containsSub ((urlSegments "https://github.com/x.repos/readme.md").getLastD [])
        ".repos".data = false := by
  decide

/-- C8 amended: a URL is treated as a repos file by the page watcher if
and only if SOME `/`-segment of the URL (query string and fragment
stripped) contains `.repos` — not necessarily the final one. -/
theorem c8_amended_any_segment (url : String) :
    isReposFile url = true ↔
      ∃ seg ∈ urlSegments url, ∃ pre suf, seg = pre ++ ".repos".data ++ suf := by
  simp only [isReposFile, List.any_eq_true, containsSub_iff]

/-- C1: for a parsed block whose record has a truthy url `u` and a
git-like type, the accepted record's link URL is `u` with a trailing
`.git` stripped, then unchanged when the version is absent (or empty,
which the code treats as absent), `/blob/<v>`-suffixed when the version
is a 40-character lowercase-hex commit hash, `/tree/<v>`-suffixed for any
other present version (e.g. a branch name, or a hash containing uppercase
letters). -/
theorem c1_version_suffix_rule (m : RepoMap) (l0 : Line) (body : List Line)
    (hguard : findRepo m (lineName l0) = none) (u ty : String)
    (hu : (body.foldl fieldStep (initRepo l0)).url = some u) (hu' : u ≠ "")
    (hty : (body.foldl fieldStep (initRepo l0)).type = some ty)
    (hgit : containsSub ty.data "git".data = true) :
    (((body.foldl fieldStep (initRepo l0)).version = none ∨
        (body.foldl fieldStep (initRepo l0)).version = some "") →
      findRepo (processBlock m (l0 :: body)) (lineName l0)
        = some { body.foldl fieldStep (initRepo l0) with url := some (stripDotGit u) })
    ∧ (∀ v, (body.foldl fieldStep (initRepo l0)).version = some v → SpecCommitHash v →
      findRepo (processBlock m (l0 :: body)) (lineName l0)
        = some { body.foldl fieldStep (initRepo l0) with
                 url := some (stripDotGit u ++ "/blob/" ++ v) })
    ∧ (∀ v, (body.foldl fieldStep (initRepo l0)).version = some v → v ≠ "" →
        ¬ SpecCommitHash v →
      findRepo (processBlock m (l0 :: body)) (lineName l0)
        = some { body.foldl fieldStep (initRepo l0) with
                 url := some (stripDotGit u ++ "/tree/" ++ v) }) := by
  have hfind : findRepo (processBlock m (l0 :: body)) (lineName l0)
      = some { body.foldl fieldStep (initRepo l0) with
               url := some (linkUrl u (body.foldl fieldStep (initRepo l0)).version) } := by
    rw [processBlock_cons_none hguard, finishRepo_eq hu hty hu' hgit]
    simp only
    rw [findRepo_append_none hguard]
    simp [findRepo]
  refine ⟨?_, ?_, ?_⟩
  · rintro (hv | hv) <;> rw [hfind, hv] <;> simp [linkUrl]
  · intro v hv hhash
    have hv' : v ≠ "" := by
      intro h0
      subst h0
      exact absurd hhash.1 (by decide)
    rw [hfind, hv]
    simp [linkUrl, hv', (commitHash_iff v).mpr hhash]
  · intro v hv hv' hhash
    have hch : commitHash v.data = false := by
      cases hc : commitHash v.data with
      | false => rfl
      | true => exact absurd ((commitHash_iff v).mp hc) hhash
    rw [hfind, hv]
    simp [linkUrl, hv', hch]

/-- C1 witness: the spec's own scenario block `pkg/foo` (SSH url, branch
version `main`) lands in the `/tree/` case. -/
theorem c1_witness :
    findRepo
      (processBlock []
        [⟨"LC2", "  pkg/foo:"⟩, ⟨"LC3", "    type: git"⟩,
         ⟨"LC4", "    url: git@github.com:org/foo.git"⟩,
         ⟨"LC5", "    version: main"⟩])
      "pkg/foo"
      = some { name := "pkg/foo", key := "LC2", type := some "git",
               url := some "https://github.com/org/foo/tree/main",
               version := some "main" } := by
  have h := (c1_version_suffix_rule [] ⟨"LC2", "  pkg/foo:"⟩
    [⟨"LC3", "    type: git"⟩, ⟨"LC4", "    url: git@github.com:org/foo.git"⟩,
     ⟨"LC5", "    version: main"⟩]
    (by decide) "https://github.com/org/foo.git" "git"
    (by decide) (by decide) (by decide) (by decide)).2.2
    "main" (by decide) (by decide) (by decide)
  exact h.trans (by decide)

/-- C2 counterexample: a block with `type: hg` and a present, valid url
is NOT accepted into the output mapping of `Utils.parseRepositories` (the
only mapping the parser produces), although both `url` and `type` fields
were read; so neither "accepted iff url and type present" nor "appears in
the raw parsed mapping" holds of the code. -/
theorem c2_counterexample :
    (([⟨"L2", " type: hg"⟩, ⟨"L3", " url: https://h/o/r.git"⟩] : List Line).foldl
        fieldStep (initRepo ⟨"L1", "x:"⟩)).url = some "https://h/o/r.git"
    ∧ (([⟨"L2", " type: hg"⟩, ⟨"L3", " url: https://h/o/r.git"⟩] : List Line).foldl
        fieldStep (initRepo ⟨"L1", "x:"⟩)).type = some "hg"
    ∧ parseRepositories
        [⟨"L1", "x:"⟩, ⟨"L2", " type: hg"⟩, ⟨"L3", " url: https://h/o/r.git"⟩] = [] := by
  decide

/-- C2 amended: the parser accepts a block's record into the output
mapping if and only if its extracted url is present and non-empty AND its
extracted type is present and contains `"git"` (version remains
optional); a block with `type: hg` therefore appears in no mapping at
all. -/
theorem c2_amended_acceptance (m : RepoMap) (l0 : Line) (body : List Line)
    (hguard : findRepo m (lineName l0) = none) :
    (∃ r, findRepo (processBlock m (l0 :: body)) (lineName l0) = some r)
    ↔ ((∃ u, (body.foldl fieldStep (initRepo l0)).url = some u ∧ u ≠ "")
       ∧ (∃ ty, (body.foldl fieldStep (initRepo l0)).type = some ty
            ∧ containsSub ty.data "git".data = true)) := by
  rw [processBlock_cons_none hguard, ← finishRepo_some_iff]
  cases hfin : finishRepo (body.foldl fieldStep (initRepo l0)) with
  | some r =>
    simp only
    constructor
    · intro _; exact ⟨r, rfl⟩
    · intro _
      refine ⟨r, ?_⟩
      rw [findRepo_append_none hguard]
      simp [findRepo]
  | none =>
    simp only
    constructor
    · rintro ⟨r, hr⟩
      rw [hguard] at hr
      cases hr
    · rintro ⟨x, hx⟩
      cases hx

/-- C2 witness: a git-typed block with a non-empty url is accepted. -/
theorem c2_witness :
    ∃ r, findRepo
      (processBlock []
        (⟨"L1", "x:"⟩ :: [⟨"L2", " type: git"⟩, ⟨"L3", " url: https://h/o/r.git"⟩]))
      (lineName ⟨"L1", "x:"⟩) = some r :=
  (c2_amended_acceptance [] ⟨"L1", "x:"⟩
      [⟨"L2", " type: git"⟩, ⟨"L3", " url: https://h/o/r.git"⟩] (by decide)).mpr
    ⟨⟨"https://h/o/r.git", by decide, by decide⟩, ⟨"git", by decide, by decide⟩⟩

/-- C3 counterexample: two blocks share the name `a` with different urls;
the first block (type `hg`) is parsed first but rejected, and the later
duplicate-name block is then processed and accepted — the output carries
the second block's data, not the first block's. -/
theorem c3_counterexample :
    findRepo
      (parseRepositories
        [⟨"L1", "a:"⟩, ⟨"L2", " type: hg"⟩, ⟨"L3", " url: https://h/o/one.git"⟩,
         ⟨"L4", "a:"⟩, ⟨"L5", " type: git"⟩, ⟨"L6", " url: https://h/o/two.git"⟩])
      "a"
      = some { name := "a", key := "L4", type := some "git",
               url := some "https://h/o/two", version := none } := by
  decide

/-- C3 amended: first-wins holds for ACCEPTED records: a block whose name
already has an accepted record is fully ignored (not merged), and an
accepted binding survives, unchanged, any continuation of the parse — so
at most one record exists per name and the first accepted block wins. -/
theorem c3_amended_first_accepted_wins :
    (∀ (m : RepoMap) (b : List Line), (findRepo m (blockName b)).isSome = true →
        processBlock m b = m)
    ∧ (∀ (ls : List Line) (s : RepoMap × List Line) (k : String) (r : Repo),
        findRepo s.1 k = some r → findRepo (parseFrom s ls) k = some r) := by
  constructor
  · intro m b h
    cases b with
    | nil => rfl
    | cons l0 body =>
      have h' : (findRepo m (lineName l0)).isSome = true := h
      rw [processBlock_cons, if_pos h']
  · intro ls s k r h
    unfold parseFrom
    exact findRepo_processBlock_mono (findRepo_foldl_mono ls s k r h)

/-- C3 witness: with an accepted record for `a` already present, the
duplicate block is ignored and the binding survives a whole parse pass
over the duplicate block's lines. -/
theorem c3_witness :
    processBlock [("a", { name := "a", key := "L1", type := some "git",
                          url := some "https://h/o/one", version := none })]
        [⟨"L4", "a:"⟩, ⟨"L5", " type: git"⟩, ⟨"L6", " url: https://h/o/two.git"⟩]
      = [("a", { name := "a", key := "L1", type := some "git",
                 url := some "https://h/o/one", version := none })]
    ∧ findRepo
        (parseFrom ([("a", { name := "a", key := "L1", type := some "git",
                             url := some "https://h/o/one", version := none })], [])
          [⟨"L4", "a:"⟩, ⟨"L5", " type: git"⟩, ⟨"L6", " url: https://h/o/two.git"⟩])
        "a"
      = some { name := "a", key := "L1", type := some "git",
               url := some "https://h/o/one", version := none } :=
  ⟨c3_amended_first_accepted_wins.1 _ _ (by decide),
   c3_amended_first_accepted_wins.2 _ _ _ _ (by decide)⟩

/-- C5 counterexample: a record that successfully read
`url: https://h/o/r.git` loses that url when a later `url: git@bad` line
fails SSH conversion — the `null` conversion result is assigned over the
previous value and the record ends up non-displayable even though the
failed value was not its sole URL source. -/
theorem c5_counterexample :
    (([⟨"L2", " url: https://h/o/r.git"⟩] : List Line).foldl fieldStep
        (initRepo ⟨"L1", "n:"⟩)).url = some "https://h/o/r.git"
    ∧ parseRepositories
        [⟨"L1", "n:"⟩, ⟨"L2", " url: https://h/o/r.git"⟩,
         ⟨"L3", " type: git"⟩, ⟨"L4", " url: git@bad"⟩] = [] := by
  decide

/-- C5 amended: when a `url:` value starts with `git@` and fails SSH
conversion, the parser assigns the failed (null) result, clobbering any
previously read url — the record's url becomes absent; processing of the
remaining body lines continues normally and no error is raised (the
record is displayable only if a LATER `url:` line supplies a valid
value). -/
theorem c5_amended_failed_ssh_clobbers (l : Line) (k : List Char)
    (vp : List (List Char))
    (hne : (trimChars l.text.data).isEmpty = false)
    (hnh : headIsHash (trimChars l.text.data) = false)
    (hsplit : splitCh ':' (trimChars l.text.data) = k :: vp)
    (hvp : vp ≠ [])
    (hk : trimChars k = "url".data)
    (hgit : startsWithL "git@".data (fieldVal vp).data = true)
    (hfail : convertSshToHttp (fieldVal vp) = none) :
    ∀ (r : Repo) (body : List Line),
      (l :: body).foldl fieldStep r = body.foldl fieldStep { r with url := none } := by
  intro r body
  simp only [List.foldl_cons]
  have hstep : fieldStep r l = { r with url := none } := by
    cases vp with
    | nil => exact absurd rfl hvp
    | cons v vps =>
      unfold fieldStep fieldStepText
      simp only [hne, hnh, hsplit, Bool.false_eq_true, if_false]
      rw [hk]
      unfold applyField
      rw [if_neg (by decide : ¬ (("url".data : List Char) = "type".data)), if_pos rfl,
        if_pos hgit, hfail]
  rw [hstep]

/-- C5 witness: the failed-conversion line `url: git@bad` maps any record
to the same record with `url` cleared. -/
theorem c5_witness :
    ([⟨"L4", " url: git@bad"⟩] : List Line).foldl fieldStep (initRepo ⟨"L1", "n:"⟩)
      = { initRepo ⟨"L1", "n:"⟩ with url := none } :=
  c5_amended_failed_ssh_clobbers ⟨"L4", " url: git@bad"⟩ "url".data [" git@bad".data]
    (by decide) (by decide) (by decide) (by decide) (by decide) (by decide) (by decide)
    (initRepo ⟨"L1", "n:"⟩) []

/-! ## Inert-line simulation

A line that never opens a block and never contributes a field can be
inserted anywhere in the input without changing the parse result.  This
is established by simulating the two scans in lock-step, relating the
current blocks by `InertExt`. -/

theorem inertExt_refl (t : List Line) : InertExt t t := by
  induction t with
  | nil => exact InertExt.nil
  | cons l t ih => exact InertExt.cons l ih

theorem inertExt_snoc_inert {t t' : List Line} (h : InertExt t t') {n : Line}
    (hn : InertLine n) : InertExt t (t' ++ [n]) := by
  induction h with
  | nil => exact InertExt.ins n hn InertExt.nil
  | cons l h ih => exact InertExt.cons l ih
  | ins m hm h ih => exact InertExt.ins m hm ih

theorem inertExt_snoc_both {t t' : List Line} (h : InertExt t t') (l : Line) :
    InertExt (t ++ [l]) (t' ++ [l]) := by
  induction h with
  | nil => exact InertExt.cons l InertExt.nil
  | cons x h ih => exact InertExt.cons x ih
  | ins m hm h ih => exact InertExt.ins m hm ih

theorem fieldFold_inertExt {t t' : List Line} (h : InertExt t t') :
    ∀ r : Repo, t'.foldl fieldStep r = t.foldl fieldStep r := by
  induction h with
  | nil => intro r; rfl
  | cons l h ih => intro r; simp only [List.foldl_cons]; exact ih _
  | ins n hn h ih =>
    intro r
    simp only [List.foldl_cons]
    rw [hn.2 r]
    exact ih r

theorem processBlock_blockRel {c c' : List Line} (h : BlockRel c c') (m : RepoMap) :
    processBlock m c' = processBlock m c := by
  rcases h with ⟨hc, hc'⟩ | ⟨l0, t, t', hc, hc', hext⟩
  · rw [hc, hc']
  · subst hc; subst hc'
    rw [processBlock_cons, processBlock_cons, fieldFold_inertExt hext]

theorem pushIfOpen_blockRel {c c' : List Line} (h : BlockRel c c') (l : Line) :
    BlockRel (pushIfOpen c l) (pushIfOpen c' l) := by
  rcases h with ⟨hc, hc'⟩ | ⟨l0, t, t', hc, hc', hext⟩
  · subst hc; subst hc'; left; exact ⟨rfl, rfl⟩
  · subst hc; subst hc'
    right
    exact ⟨l0, t ++ [l], t' ++ [l], rfl, rfl, inertExt_snoc_both hext l⟩

theorem parseStep_blockRel {c c' : List Line} (h : BlockRel c c') (m : RepoMap)
    (l : Line) :
    (parseStep (m, c) l).1 = (parseStep (m, c') l).1 ∧
    BlockRel (parseStep (m, c) l).2 (parseStep (m, c') l).2 := by
  unfold parseStep
  by_cases hk : keyPat (trimChars l.text.data) = true
  · rw [if_pos hk, if_pos hk]
    by_cases he : l.id = "LC1" ∧ trimChars l.text.data = "repositories:".data
    · rw [if_pos he, if_pos he]
      exact ⟨rfl, pushIfOpen_blockRel h l⟩
    · rw [if_neg he, if_neg he]
      refine ⟨(processBlock_blockRel h m).symm, ?_⟩
      right
      exact ⟨l, [], [], rfl, rfl, InertExt.nil⟩
  · rw [if_neg hk, if_neg hk]
    exact ⟨rfl, pushIfOpen_blockRel h l⟩

theorem foldl_blockRel (ls : List Line) :
    ∀ (m : RepoMap) (c c' : List Line), BlockRel c c' →
      (ls.foldl parseStep (m, c)).1 = (ls.foldl parseStep (m, c')).1 ∧
      BlockRel (ls.foldl parseStep (m, c)).2 (ls.foldl parseStep (m, c')).2 := by
  induction ls with
  | nil => intro m c c' h; exact ⟨rfl, h⟩
  | cons l t ih =>
    intro m c c' h
    obtain ⟨h1, h2⟩ := parseStep_blockRel h m l
    simp only [List.foldl_cons]
    have e2 : parseStep (m, c') l = ((parseStep (m, c) l).1, (parseStep (m, c') l).2) := by
      rw [h1]
    rw [e2]
    exact ih (parseStep (m, c) l).1 (parseStep (m, c) l).2 (parseStep (m, c') l).2 h2

/-- Inserting one inert line anywhere leaves the parse result unchanged. -/
theorem parse_insert_inert {n : Line} (hn : InertLine n) (ls1 ls2 : List Line) :
    parseRepositories (ls1 ++ n :: ls2) = parseRepositories (ls1 ++ ls2) := by
  unfold parseRepositories
  rw [List.foldl_append, List.foldl_append]
  set S := ls1.foldl parseStep ((∅ : RepoMap), ([] : List Line)) with hSdef
  simp only [List.foldl_cons]
  rw [hn.1 S]
  have hrel : BlockRel S.2 (pushIfOpen S.2 n) := by
    cases hc : S.2 with
    | nil => left; exact ⟨rfl, rfl⟩
    | cons l0 t =>
      right
      exact ⟨l0, t, t ++ [n], rfl, rfl, inertExt_snoc_inert (inertExt_refl t) hn⟩
  obtain ⟨h1, h2⟩ := foldl_blockRel ls2 S.1 S.2 (pushIfOpen S.2 n) hrel
  have goal_eq : processBlock (ls2.foldl parseStep (S.1, pushIfOpen S.2 n)).1
      (ls2.foldl parseStep (S.1, pushIfOpen S.2 n)).2
      = processBlock (ls2.foldl parseStep (S.1, S.2)).1
          (ls2.foldl parseStep (S.1, S.2)).2 := by
    rw [← h1]
    exact processBlock_blockRel h2 _
  exact goal_eq

/-- A blank or comment line is inert. -/
theorem noise_inert {l : Line} (h : NoiseLine l) : InertLine l := by
  have hkp : keyPat (trimChars l.text.data) = false := by
    rcases h with h | h
    · rw [h]; rfl
    · cases ht : trimChars l.text.data with
      | nil => rw [ht] at h; cases h
      | cons c rest =>
        rw [ht] at h
        have hc : c = '#' := of_decide_eq_true h
        subst hc
        unfold keyPat
        rw [List.takeWhile_cons]
        rw [show keyChar '#' = false from by decide]
        simp
  constructor
  · intro s
    unfold parseStep
    rw [if_neg (by rw [hkp]; exact Bool.false_ne_true)]
  · intro r
    unfold fieldStep fieldStepText
    rcases h with h | h
    · rw [h]; rfl
    · cases ht : trimChars l.text.data with
      | nil => rfl
      | cons c rest =>
        rw [ht] at h
        rw [if_neg (by simp), if_pos h]

/-- The exempt outer header line (`id = "LC1"`, text `repositories:`) is
inert: it matches the key pattern but is never allowed to open a block,
and as a body line it contributes no field. -/
theorem header_inert (txt : String) (h : trimChars txt.data = "repositories:".data) :
    InertLine ⟨"LC1", txt⟩ := by
  constructor
  · intro s
    unfold parseStep
    rw [(h : trimChars (⟨"LC1", txt⟩ : Line).text.data = "repositories:".data)]
    rw [if_pos (by decide : keyPat "repositories:".data = true)]
    rw [if_pos ⟨rfl, rfl⟩]
  · intro r
    unfold fieldStep fieldStepText
    rw [(h : trimChars (⟨"LC1", txt⟩ : Line).text.data = "repositories:".data)]
    rfl

/-- C7: inserting a blank line and a `# a comment` line inside a block
(between the `type:` and `url:` field lines, or anywhere else) yields a
parse result identical to parsing without them; lines whose trimmed text
is empty or starts with `#` never start a block and never contribute
fields. -/
theorem c7_comment_blank_tolerance :
    (∀ (ls1 ls2 : List Line) (i j : String),
      parseRepositories (ls1 ++ ⟨i, ""⟩ :: ⟨j, "# a comment"⟩ :: ls2)
        = parseRepositories (ls1 ++ ls2))
    ∧ (∀ l : Line, NoiseLine l →
        (∀ s : RepoMap × List Line, parseStep s l = (s.1, pushIfOpen s.2 l)) ∧
        (∀ r : Repo, fieldStep r l = r)) := by
  constructor
  · intro ls1 ls2 i j
    have h0 : headIsHash (trimChars "# a comment".data) = true := by decide
    have h1 : InertLine ⟨i, ""⟩ := noise_inert (Or.inl rfl)
    have h2 : InertLine ⟨j, "# a comment"⟩ := noise_inert (Or.inr h0)
    calc parseRepositories (ls1 ++ ⟨i, ""⟩ :: ⟨j, "# a comment"⟩ :: ls2)
        = parseRepositories (ls1 ++ ⟨j, "# a comment"⟩ :: ls2) :=
          parse_insert_inert h1 ls1 _
      _ = parseRepositories (ls1 ++ ls2) := parse_insert_inert h2 ls1 ls2
  · intro l hl
    exact ⟨(noise_inert hl).1, (noise_inert hl).2⟩

/-- C7 witness: concrete block with the blank and comment lines between
`type:` and `url:`. -/
theorem c7_witness :
    parseRepositories ([⟨"L1", "n:"⟩, ⟨"L2", "  type: git"⟩] ++
        ⟨"B", ""⟩ :: ⟨"C", "# a comment"⟩ :: [⟨"L3", "  url: https://h/o/r.git"⟩])
      = parseRepositories ([⟨"L1", "n:"⟩, ⟨"L2", "  type: git"⟩] ++
          [⟨"L3", "  url: https://h/o/r.git"⟩])
    ∧ parseStep ((∅ : RepoMap), []) ⟨"B", ""⟩
        = ((∅ : RepoMap), pushIfOpen [] ⟨"B", ""⟩)
    ∧ fieldStep (initRepo ⟨"L1", "n:"⟩) ⟨"C", "# a comment"⟩ = initRepo ⟨"L1", "n:"⟩ :=
  ⟨c7_comment_blank_tolerance.1 [⟨"L1", "n:"⟩, ⟨"L2", "  type: git"⟩]
      [⟨"L3", "  url: https://h/o/r.git"⟩] "B" "C",
   (c7_comment_blank_tolerance.2 ⟨"B", ""⟩ (Or.inl rfl)).1 (∅, []),
   (c7_comment_blank_tolerance.2 ⟨"C", "# a comment"⟩ (Or.inr (by decide))).2 _⟩

/-- C4 counterexample: a sequence whose FIRST line has text
`repositories:` but id `LC5` — per the claim the header should be skipped
(it is the first line of content), leaving no block and an empty mapping;
the code instead opens a block named `repositories` and accepts it. -/
theorem c4_counterexample :
    findRepo
      (parseRepositories
        [⟨"LC5", "repositories:"⟩, ⟨"LC6", " type: git"⟩,
         ⟨"LC7", " url: https://h/o/r.git"⟩])
      "repositories"
      = some { name := "repositories", key := "LC5", type := some "git",
               url := some "https://h/o/r", version := none } := by
  decide

/-- C4 amended: the `repositories:` header exemption is keyed off the
fixed line id `"LC1"`, not off being the first line of the sequence: a
key-pattern line with text `repositories:` and id `LC1` is inert wherever
it appears (skipped as data, transparent to parsing), while the same text
under any other id always opens an ordinary block. -/
theorem c4_amended_fixed_id_exemption :
    (∀ (ls1 ls2 : List Line) (txt : String),
      trimChars txt.data = "repositories:".data →
      parseRepositories (ls1 ++ ⟨"LC1", txt⟩ :: ls2) = parseRepositories (ls1 ++ ls2))
    ∧ (∀ (s : RepoMap × List Line) (i txt : String), i ≠ "LC1" →
        trimChars txt.data = "repositories:".data →
        parseStep s ⟨i, txt⟩ = (processBlock s.1 s.2, [⟨i, txt⟩])) := by
  constructor
  · intro ls1 ls2 txt h
    exact parse_insert_inert (header_inert txt h) ls1 ls2
  · intro s i txt hi h
    unfold parseStep
    simp only [h]
    rw [if_pos (by decide : keyPat "repositories:".data = true)]
    rw [if_neg (by intro hc; exact hi hc.1)]

/-- C4 witness: the `LC1` header is transparent in the middle of a block,
and the same text under id `LC9` opens a block. -/
theorem c4_witness :
    parseRepositories ([⟨"L1", "n:"⟩, ⟨"L2", "  type: git"⟩] ++
        ⟨"LC1", "repositories:"⟩ :: [⟨"L3", "  url: https://h/o/r.git"⟩])
      = parseRepositories ([⟨"L1", "n:"⟩, ⟨"L2", "  type: git"⟩] ++
          [⟨"L3", "  url: https://h/o/r.git"⟩])
    ∧ parseStep ((∅ : RepoMap), [⟨"L1", "n:"⟩]) ⟨"LC9", "repositories:"⟩
        = (processBlock ∅ [⟨"L1", "n:"⟩], [⟨"LC9", "repositories:"⟩]) :=
  ⟨c4_amended_fixed_id_exemption.1 [⟨"L1", "n:"⟩, ⟨"L2", "  type: git"⟩]
      [⟨"L3", "  url: https://h/o/r.git"⟩] "repositories:" (by decide),
   c4_amended_fixed_id_exemption.2 (∅, [⟨"L1", "n:"⟩]) "LC9" "repositories:"
      (by decide) (by decide)⟩

/-! ## The record invariant (C10) -/

theorem finishRepo_some_elim {rf x : Repo} (h : finishRepo rf = some x) :
    x.name = rf.name ∧ x.key = rf.key ∧
    (∃ ty, x.type = some ty ∧ containsSub ty.data "git".data = true) ∧
    (∃ u, x.url = some u) := by
  rcases hu : rf.url with _ | u
  · simp [finishRepo, hu] at h
  · rcases ht : rf.type with _ | ty
    · simp [finishRepo, hu, ht] at h
    · simp only [finishRepo, hu, ht] at h
      by_cases hc : (u ≠ "" ∧ containsSub ty.data "git".data = true)
      · rw [if_pos hc] at h
        have hx : x = { name := rf.name, key := rf.key, type := some ty,
                        url := some (linkUrl u rf.version), version := rf.version } :=
          (Option.some.inj h).symm
        subst hx
        exact ⟨rfl, rfl, ⟨ty, rfl, hc.2⟩, ⟨linkUrl u rf.version, rfl⟩⟩
      · rw [if_neg hc] at h; cases h

theorem findRepo_singleton (n : String) (x : Repo) (k : String) :
    findRepo [(n, x)] k = if k = n then some x else none := rfl

theorem processBlock_good {ls : List Line} {m : RepoMap} {b : List Line}
    (hm : ∀ k r, findRepo m k = some r → GoodRec ls k r)
    (hb : ∀ l ∈ b, l ∈ ls) :
    ∀ k r, findRepo (processBlock m b) k = some r → GoodRec ls k r := by
  intro k r h
  cases b with
  | nil => exact hm k r h
  | cons l0 body =>
    rw [processBlock_cons] at h
    by_cases hg : (findRepo m (lineName l0)).isSome = true
    · rw [if_pos hg] at h; exact hm k r h
    · rw [if_neg hg] at h
      cases hfin : finishRepo (body.foldl fieldStep (initRepo l0)) with
      | none => rw [hfin] at h; exact hm k r h
      | some x =>
        rw [hfin] at h
        rcases @findRepo_append_cases m [(lineName l0, x)] k r h with
          h' | ⟨h1, h2⟩
        · exact hm k r h'
        · by_cases hkk : k = lineName l0
          case neg =>
            rw [findRepo_singleton, if_neg hkk] at h2
            cases h2
          case pos =>
            rw [findRepo_singleton, if_pos hkk] at h2
            have hrx : r = x := (Option.some.inj h2).symm
            subst hrx
            obtain ⟨hn, hk2, hty, hu⟩ := finishRepo_some_elim hfin
            obtain ⟨hfn, hfk⟩ := foldl_fieldStep_name_key body (initRepo l0)
            refine ⟨?_, hty, hu, ⟨l0, hb l0 (by simp), ?_, hkk.symm⟩⟩
            · rw [hn, hfn]
              exact hkk.symm
            · rw [hk2, hfk]
              rfl

theorem pushIfOpen_mem {cur : List Line} {l x : Line}
    (hx : x ∈ pushIfOpen cur l) : x ∈ cur ∨ x = l := by
  cases cur with
  | nil => cases hx
  | cons c t =>
    unfold pushIfOpen at hx
    rcases List.mem_append.mp hx with h | h
    · exact Or.inl h
    · exact Or.inr (List.mem_singleton.mp h)

theorem parse_good_aux (ls : List Line) (ls2 : List Line) :
    ∀ s : RepoMap × List Line,
      (∀ k r, findRepo s.1 k = some r → GoodRec ls k r) →
      (∀ l ∈ s.2, l ∈ ls) → (∀ l ∈ ls2, l ∈ ls) →
      (∀ k r, findRepo (ls2.foldl parseStep s).1 k = some r → GoodRec ls k r) ∧
      (∀ l ∈ (ls2.foldl parseStep s).2, l ∈ ls) := by
  induction ls2 with
  | nil => intro s h1 h2 _; exact ⟨h1, h2⟩
  | cons l t ih =>
    intro s h1 h2 h3
    simp only [List.foldl_cons]
    apply ih (parseStep s l)
    · unfold parseStep
      by_cases hk : keyPat (trimChars l.text.data) = true
      · rw [if_pos hk]
        by_cases he : l.id = "LC1" ∧ trimChars l.text.data = "repositories:".data
        · rw [if_pos he]; exact h1
        · rw [if_neg he]
          exact processBlock_good h1 h2
      · rw [if_neg hk]; exact h1
    · unfold parseStep
      by_cases hk : keyPat (trimChars l.text.data) = true
      · rw [if_pos hk]
        by_cases he : l.id = "LC1" ∧ trimChars l.text.data = "repositories:".data
        · rw [if_pos he]
          intro x hx
          rcases pushIfOpen_mem hx with h | h
          · exact h2 x h
          · rw [h]; exact h3 l (by simp)
        · rw [if_neg he]
          intro x hx
          rw [List.mem_singleton.mp hx]
          exact h3 l (by simp)
      · rw [if_neg hk]
        intro x hx
        rcases pushIfOpen_mem hx with h | h
        · exact h2 x h
        · rw [h]; exact h3 l (by simp)
    · intro x hx
      exact h3 x (List.mem_cons_of_mem l hx)

/-- C10 counterexample: the raw url `.git` yields an accepted record
whose final url is the EMPTY string — url is present but not a non-empty
string as the claim requires. -/
theorem c10_counterexample :
    findRepo
      (parseRepositories [⟨"L1", "n:"⟩, ⟨"L2", " url: .git"⟩, ⟨"L3", " type: git"⟩])
      "n"
      = some { name := "n", key := "L1", type := some "git", url := some "",
               version := none } := by
  decide

/-- C10 amended: in every mapping returned by `Utils.parseRepositories`,
each key `k` maps to a record whose `name` equals `k`, whose `type` is
present and contains `"git"`, whose `url` is present (a string that may
be empty, e.g. when the raw url was exactly `.git`), and whose `key` is
the id of an input line whose key text is `k` — the first line of the
block it was parsed from. -/
theorem c10_amended_record_invariant (ls : List Line) (k : String) (r : Repo)
    (h : findRepo (parseRepositories ls) k = some r) : GoodRec ls k r := by
  unfold parseRepositories at h
  have base : ∀ k' r', findRepo (∅ : RepoMap) k' = some r' → GoodRec ls k' r' := by
    intro k' r' h'; cases h'
  obtain ⟨hmap, hcur⟩ := parse_good_aux ls ls ((∅ : RepoMap), ([] : List Line)) base
    (by intro l hl; cases hl) (fun l hl => hl)
  exact processBlock_good hmap hcur k r h

/-- C10 witness: the invariant at a concrete accepted record. -/
theorem c10_witness :
    GoodRec [⟨"L1", "pkg:"⟩, ⟨"L2", " type: git"⟩, ⟨"L3", " url: https://h/o/r.git"⟩]
      "pkg"
      { name := "pkg", key := "L1", type := some "git", url := some "https://h/o/r",
        version := none } :=
  c10_amended_record_invariant _ _ _ (by decide)

/-! ## Cycle cancellation (C9) -/

theorem appUpdate_pending (s : AppState) (cr : Nat) (cn : Bool) :
    (appUpdate s cr cn).pending = s.pending := by
  unfold appUpdate renderButtons
  split <;> rfl

theorem tryLoadStep_pending (s : AppState) (cr n : Nat) (cn : Bool) :
    (tryLoadStep s cr n cn).pending = s.pending ∨
    (tryLoadStep s cr n cn).pending = s.pending ++ [(s.nextId, .retry cr (n + 1))] := by
  unfold tryLoadStep
  split
  · left
    show (appUpdate s cr cn).pending = s.pending
    exact appUpdate_pending s cr cn
  · split
    · right; rfl
    · left; rfl

theorem appInit_pending_eq (x : AppState) (cn : Bool) :
    (appInit x cn).pending = x.pending ∨
    ∃ cr n, (appInit x cn).pending = x.pending ++ [(x.nextId, .retry cr n)] := by
  unfold appInit
  split
  · rcases tryLoadStep_pending x x.cycle 0 cn with h | h
    · left; exact h
    · right; exact ⟨x.cycle, 1, h⟩
  · left; rfl

theorem clearStoredTimer_pending (s : AppState) :
    (s.timer = none ∧ (clearStoredTimer s).pending = s.pending) ∨
    ∃ id, s.timer = some id ∧
      (clearStoredTimer s).pending = s.pending.filter (fun q => q.1 ≠ id) := by
  cases h : s.timer with
  | none =>
    left
    refine ⟨rfl, ?_⟩
    unfold clearStoredTimer
    rw [h]
  | some id =>
    right
    refine ⟨id, rfl, ?_⟩
    unfold clearStoredTimer
    rw [h]

theorem clear_no_debounce {s : AppState}
    (hinv : ∀ p ∈ s.pending, p.2.isDebounce = true → s.timer = some p.1) :
    ∀ p ∈ (clearStoredTimer s).pending, p.2.isDebounce = false := by
  intro p hp
  cases hd : p.2.isDebounce with
  | false => rfl
  | true =>
    exfalso
    rcases clearStoredTimer_pending s with ⟨htm, hpe⟩ | ⟨id, hid, hpe⟩
    · rw [hpe] at hp
      have := hinv p hp hd
      rw [htm] at this
      cases this
    · rw [hpe, List.mem_filter] at hp
      obtain ⟨hp1, hp2⟩ := hp
      have h1 := hinv p hp1 hd
      rw [hid] at h1
      exact (of_decide_eq_true hp2) (Option.some.inj h1).symm

/-- C9 counterexample: cycle A (`a.repos`, container missing, retry
scheduled) is abandoned when `processUrl` starts cycle B; A's pending
retry is NOT cancelled, and when it fires with the container present it
still creates overlay controls — after B has started (stale creation
logged, buttons tagged with A's cycle). -/
theorem c9_counterexample :
    (fireRetry (processUrl (processUrl initialApp "https://h/a.repos" false)
        "https://h/b.repos" false) 0 true).staleLog = [(1, 2)]
    ∧ (fireRetry (processUrl (processUrl initialApp "https://h/a.repos" false)
        "https://h/b.repos" false) 0 true).buttons = [1]
    ∧ (fireRetry (processUrl (processUrl initialApp "https://h/a.repos" false)
        "https://h/b.repos" false) 0 true).cycle = 2 := by
  decide

/-- C9 amended: starting a new cycle (`processUrl` with a fresh URL)
cancels the pending debounced callback — afterwards no debounce task is
pending — but pending retry callbacks are NOT cancelled: every pending
retry of the abandoned cycle is still pending after the new cycle has
started (and, per the counterexample, performs no active-cycle check when
it later fires). -/
theorem c9_amended_cancellation :
    (∀ (s : AppState) (u : String) (cn : Bool), u ≠ s.lastUrl →
      (∀ p ∈ s.pending, p.2.isDebounce = true → s.timer = some p.1) →
      ∀ p ∈ (processUrl s u cn).pending, p.2.isDebounce = false)
    ∧ (∀ (s : AppState) (u : String) (cn : Bool) (p : Nat × TimerTask),
        p ∈ s.pending → p.2.isRetry = true → s.timer ≠ some p.1 →
        p ∈ (processUrl s u cn).pending) := by
  constructor
  · intro s u cn hu hinv p hp
    unfold processUrl at hp
    rw [if_neg hu] at hp
    have hclear : ∀ q ∈ (clearStoredTimer
        { s with lastUrl := u, buttons := [], listeners := false,
                 cycle := s.cycle + 1 }).pending, q.2.isDebounce = false :=
      clear_no_debounce (by intro q hq hdq; exact hinv q hq hdq)
    rcases appInit_pending_eq (clearStoredTimer
        { s with lastUrl := u, buttons := [], listeners := false,
                 cycle := s.cycle + 1 }) cn with he | ⟨cr, n, he⟩
    · rw [he] at hp
      exact hclear p hp
    · rw [he] at hp
      rcases List.mem_append.mp hp with h1 | h1
      · exact hclear p h1
      · rw [List.mem_singleton.mp h1]
        rfl
  · intro s u cn p hp hretry htimer
    unfold processUrl
    by_cases hu : u = s.lastUrl
    · rw [if_pos hu]; exact hp
    · rw [if_neg hu]
      have h1 : p ∈ (clearStoredTimer
          { s with lastUrl := u, buttons := [], listeners := false,
                   cycle := s.cycle + 1 }).pending := by
        rcases clearStoredTimer_pending
            { s with lastUrl := u, buttons := [], listeners := false,
                     cycle := s.cycle + 1 } with ⟨_, hpe⟩ | ⟨id, hid, hpe⟩
        · rw [hpe]; exact hp
        · rw [hpe, List.mem_filter]
          refine ⟨hp, ?_⟩
          apply decide_eq_true
          intro heq
          subst heq
          exact htimer hid
      rcases appInit_pending_eq (clearStoredTimer
          { s with lastUrl := u, buttons := [], listeners := false,
                   cycle := s.cycle + 1 }) cn with he | ⟨cr, n, he⟩
      · rw [he]; exact h1
      · rw [he]; exact List.mem_append_left _ h1

/-- C9 witness: a concrete state with one pending debounce (stored in
`this.timer`) and one pending retry — after `processUrl` to a new URL the
debounce is gone and the retry survives. -/
theorem c9_witness :
    (∀ p ∈ (processUrl
        { lastUrl := "https://h/a.repos", timer := some 0,
          pending := [(0, .debounce 1), (1, .retry 1 1)], nextId := 2,
          listeners := true, buttons := [], cycle := 1, staleLog := [] }
        "https://h/b.repos" false).pending, p.2.isDebounce = false)
    ∧ (1, TimerTask.retry 1 1) ∈ (processUrl
        { lastUrl := "https://h/a.repos", timer := some 0,
          pending := [(0, .debounce 1), (1, .retry 1 1)], nextId := 2,
          listeners := true, buttons := [], cycle := 1, staleLog := [] }
        "https://h/b.repos" false).pending :=
  ⟨c9_amended_cancellation.1 _ "https://h/b.repos" false (by decide) (by decide),
   c9_amended_cancellation.2 _ "https://h/b.repos" false (1, TimerTask.retry 1 1)
      (by decide) (by decide) (by decide)⟩

end Vcs
